import Mathlib

/-!
Shallow embedding of the homopolymer decompression tool
(`src/main.rs` of `minimap2-homopolymer-decompression`).

Modelling conventions:
* `usize` is modelled as `Nat`; `usize` subtraction is modelled as truncated
  `Nat` subtraction (the tool only ever subtracts offset-table values taken at
  a smaller index from values taken at a larger index, which on the intended
  non-decreasing cumulative tables never underflows).
* Rust `String`s inside difference columns are modelled as `List Char`.
* Every panic site reachable from `hodeco_paf_line` (missing map, failed
  `assert`, out-of-bounds `Vec` indexing or slicing, unsupported CIGAR
  mismatch) is modelled as an `Except.error` carrying a constructor that names
  the panic site, so "fatal error" = `Except.error`.
* The `f64` divergence fields are modelled as exact rationals `ℚ`.
* The `HashMap<String, Vec<usize>>` stores are modelled as association lists
  queried with `List.lookup`.
* The record type `PAFLine` with its `CigarColumn`/`DifferenceColumn` columns
  lives in the external `minimap2-paf-io` crate; its fields are reproduced
  here from the uses in `src/main.rs` and from the spec's AlignmentRecord
  data model (§3), including the `strand` flag and `mapping_quality` that the
  tool never touches.
-/

namespace Hodeco

/-- CIGAR run column (`minimap2_paf_io::data::CigarColumn`). -/
inductive CigarColumn where
  | Match (count : Nat)
  | Insertion (count : Nat)
  | Deletion (count : Nat)
  | Mismatch (count : Nat)
deriving Repr, DecidableEq

/-- Base-level difference column (`minimap2_paf_io::data::DifferenceColumn`). -/
inductive DifferenceColumn where
  | Match (length : Nat)
  | Deletion (missing_query_characters : List Char)
  | Insertion (superfluous_query_characters : List Char)
  | Mismatch (reference : Char) (query : Char)
deriving Repr, DecidableEq

/-- One PAF alignment record (`minimap2_paf_io::data::PAFLine`), restricted to
the fields the decompressor reads or writes plus the untouched `strand` and
`mapping_quality` fields of the spec's AlignmentRecord. -/
structure PAFLine where
  query_sequence_name : String
  query_sequence_length : Nat
  query_start_coordinate : Nat
  query_end_coordinate : Nat
  strand : Bool
  target_sequence_name : String
  target_sequence_length : Nat
  target_start_coordinate_on_original_strand : Nat
  target_end_coordinate_on_original_strand : Nat
  number_of_matching_bases : Nat
  number_of_bases_and_gaps : Nat
  mapping_quality : Nat
  cigar_string : Option (List CigarColumn)
  difference_string : Option (List DifferenceColumn)
  total_number_of_mismatches_and_gaps : Option Nat
  approximate_per_base_sequence_divergence : Option ℚ
  gap_compressed_per_base_sequence_divergence : Option ℚ
deriving Repr, DecidableEq

/-- One constructor per panic site reachable from `hodeco_paf_line`. -/
inductive HodecoError where
  | queryMapNotFound (name : String)
  | targetMapNotFound (name : String)
  | queryLengthMismatch
  | targetLengthMismatch
  | nonPositiveQuerySpan
  | nonPositiveTargetSpan
  | mismatchNotSupported
  | indexOutOfBounds
deriving Repr, DecidableEq

/-- Sequencing of fallible steps (Rust code that panics on the first failure). -/
def andThenE {α β : Type} (x : Except HodecoError α) (f : α → Except HodecoError β) :
    Except HodecoError β :=
  match x with
  | Except.error e => Except.error e
  | Except.ok a => f a

/-- Rust `Vec` indexing `table[i]`, which panics when out of bounds. -/
def idx (table : List Nat) (i : Nat) : Except HodecoError Nat :=
  match table[i]? with
  | some v => Except.ok v
  | none => Except.error HodecoError.indexOutOfBounds

/-- Rust `table.last().unwrap()`, which panics on an empty vector. -/
def lastE (table : List Nat) : Except HodecoError Nat :=
  match table.getLast? with
  | some v => Except.ok v
  | none => Except.error HodecoError.indexOutOfBounds

/-- Rust `maps.get(name).unwrap_or_else(panic)`. -/
def lookupE (maps : List (String × List Nat)) (name : String) (e : HodecoError) :
    Except HodecoError (List Nat) :=
  match List.lookup name maps with
  | some m => Except.ok m
  | none => Except.error e

/-- Loop body of `homopolymer_decompress_string` from `index` on: character
number `index` of the remaining input is repeated
`hodeco_map[index + 1] - hodeco_map[index]` times. -/
def hodecoStringFrom (hodeco_map : List Nat) : List Char → Nat → List Char
  | [], _ => []
  | character :: rest, index =>
      List.replicate (hodeco_map.getD (index + 1) 0 - hodeco_map.getD index 0) character
        ++ hodecoStringFrom hodeco_map rest (index + 1)

/-- `homopolymer_decompress_string` (src/main.rs lines 337-346).  All calls
made by `hodeco_paf_line` pass a slice of length `input.length + 1`, so the
`getD` default is never reached there. -/
def homopolymer_decompress_string (input : List Char) (hodeco_map : List Nat) : List Char :=
  hodecoStringFrom hodeco_map input 0

/-- CIGAR walk of `hodeco_paf_line` (src/main.rs lines 216-251): returns the
rewritten columns together with the recomputed `number_of_matching_bases` and
`number_of_bases_and_gaps` accumulators. -/
def hodecoCigar (query_hodeco_map target_hodeco_map : List Nat) :
    List CigarColumn → Nat → Nat → Except HodecoError (List CigarColumn × Nat × Nat)
  | [], _, _ => Except.ok ([], 0, 0)
  | CigarColumn.Match count :: rest, query_offset, target_offset =>
      andThenE (idx query_hodeco_map (query_offset + count)) fun a =>
      andThenE (idx query_hodeco_map query_offset) fun b =>
      andThenE (hodecoCigar query_hodeco_map target_hodeco_map rest (query_offset + count)
          (target_offset + count)) fun r =>
      Except.ok (CigarColumn.Match (a - b) :: r.1, (a - b) + r.2.1, (a - b) + r.2.2)
  | CigarColumn.Deletion count :: rest, query_offset, target_offset =>
      andThenE (idx target_hodeco_map (target_offset + count)) fun a =>
      andThenE (idx target_hodeco_map target_offset) fun b =>
      andThenE (hodecoCigar query_hodeco_map target_hodeco_map rest query_offset
          (target_offset + count)) fun r =>
      Except.ok (CigarColumn.Deletion (a - b) :: r.1, r.2.1, (a - b) + r.2.2)
  | CigarColumn.Insertion count :: rest, query_offset, target_offset =>
      andThenE (idx query_hodeco_map (query_offset + count)) fun a =>
      andThenE (idx query_hodeco_map query_offset) fun b =>
      andThenE (hodecoCigar query_hodeco_map target_hodeco_map rest (query_offset + count)
          target_offset) fun r =>
      Except.ok (CigarColumn.Insertion (a - b) :: r.1, r.2.1, (a - b) + r.2.2)
  | CigarColumn.Mismatch _ :: _, _, _ => Except.error HodecoError.mismatchNotSupported

/-- Difference walk of `hodeco_paf_line` (src/main.rs lines 264-308): returns
the rewritten columns, the collected `mismatch_insertion` quadruples
`(index, hodeco_count, reference, query)` in push order, and the accumulated
`total_number_of_mismatches_and_gaps`. -/
def hodecoDiff (query_hodeco_map target_hodeco_map : List Nat) :
    List DifferenceColumn → Nat → Nat → Nat →
    Except HodecoError (List DifferenceColumn × List (Nat × Nat × Char × Char) × Nat)
  | [], _, _, _ => Except.ok ([], [], 0)
  | DifferenceColumn.Match len :: rest, query_offset, target_offset, index =>
      andThenE (idx query_hodeco_map (query_offset + len)) fun a =>
      andThenE (idx query_hodeco_map query_offset) fun b =>
      andThenE (hodecoDiff query_hodeco_map target_hodeco_map rest (query_offset + len)
          (target_offset + len) (index + 1)) fun r =>
      Except.ok (DifferenceColumn.Match (a - b) :: r.1, r.2.1, r.2.2)
  | DifferenceColumn.Deletion missing_query_characters :: rest, query_offset, target_offset,
      index =>
      if target_offset + missing_query_characters.length + 1 ≤ target_hodeco_map.length then
        let decompressed := homopolymer_decompress_string missing_query_characters
          ((target_hodeco_map.drop target_offset).take (missing_query_characters.length + 1))
        andThenE (hodecoDiff query_hodeco_map target_hodeco_map rest query_offset
            (target_offset + missing_query_characters.length) (index + 1)) fun r =>
        Except.ok (DifferenceColumn.Deletion decompressed :: r.1, r.2.1,
          decompressed.length + r.2.2)
      else Except.error HodecoError.indexOutOfBounds
  | DifferenceColumn.Insertion superfluous_query_characters :: rest, query_offset, target_offset,
      index =>
      if query_offset + superfluous_query_characters.length + 1 ≤ query_hodeco_map.length then
        let decompressed := homopolymer_decompress_string superfluous_query_characters
          ((query_hodeco_map.drop query_offset).take (superfluous_query_characters.length + 1))
        andThenE (hodecoDiff query_hodeco_map target_hodeco_map rest
            (query_offset + superfluous_query_characters.length) target_offset (index + 1)) fun r =>
        Except.ok (DifferenceColumn.Insertion decompressed :: r.1, r.2.1,
          decompressed.length + r.2.2)
      else Except.error HodecoError.indexOutOfBounds
  | DifferenceColumn.Mismatch reference query :: rest, query_offset, target_offset, index =>
      andThenE (idx query_hodeco_map (query_offset + 1)) fun a =>
      andThenE (idx query_hodeco_map query_offset) fun b =>
      andThenE (hodecoDiff query_hodeco_map target_hodeco_map rest (query_offset + 1)
          (target_offset + 1) (index + 1)) fun r =>
      Except.ok (DifferenceColumn.Mismatch reference query :: r.1,
        (index, a - b - 1, reference, query) :: r.2.1, (a - b - 1) + r.2.2)

/-- Rust `Vec::insert(index, column)`: shifts everything at `index` and after
one slot right.  An index past the end (which would panic in Rust) is never
reached by `hodeco_paf_line`, whose indices come from `enumerate`. -/
def vecInsert (column : DifferenceColumn) : Nat → List DifferenceColumn → List DifferenceColumn
  | 0, l => column :: l
  | _ + 1, [] => []
  | n + 1, head :: tail => head :: vecInsert column n tail

/-- Inner insertion loop `for _ in 0..hodeco_count` (src/main.rs lines 311-315). -/
def insertCopies : List DifferenceColumn → Nat → Nat → Char → Char → List DifferenceColumn
  | l, _, 0, _, _ => l
  | l, index, n + 1, reference, query =>
      insertCopies (vecInsert (DifferenceColumn.Mismatch reference query) index l) index n
        reference query

/-- Deferred-insertion loop `for ... in mismatch_insertion.into_iter().rev()`
(src/main.rs lines 310-316); the quadruples arrive in push order, so the last
pushed quadruple is applied first. -/
def applyInsertions (l : List DifferenceColumn) :
    List (Nat × Nat × Char × Char) → List DifferenceColumn
  | [] => l
  | e :: rest => insertCopies (applyInsertions l rest) e.1 e.2.1 e.2.2.1 e.2.2.2

/-- The `if let Some(cigar_string)` block (src/main.rs lines 209-255): when no
CIGAR string is present the two count fields keep their original values. -/
def hodecoCigarField (query_hodeco_map target_hodeco_map : List Nat)
    (hoco_query_start hoco_target_start : Nat) :
    Option (List CigarColumn) → Nat → Nat →
    Except HodecoError (Option (List CigarColumn) × Nat × Nat)
  | none, number_of_matching_bases, number_of_bases_and_gaps =>
      Except.ok (none, number_of_matching_bases, number_of_bases_and_gaps)
  | some columns, _, _ =>
      andThenE (hodecoCigar query_hodeco_map target_hodeco_map columns hoco_query_start
        hoco_target_start) fun r =>
      Except.ok (some r.1, r.2.1, r.2.2)

/-- The `if let Some(difference_string)` block (src/main.rs lines 257-319):
when no difference string is present the total keeps its original value,
otherwise it is replaced by `Some` of the fresh accumulator. -/
def hodecoDiffField (query_hodeco_map target_hodeco_map : List Nat)
    (hoco_query_start hoco_target_start : Nat) :
    Option (List DifferenceColumn) → Option Nat →
    Except HodecoError (Option (List DifferenceColumn) × Option Nat)
  | none, old_total => Except.ok (none, old_total)
  | some columns, _ =>
      andThenE (hodecoDiff query_hodeco_map target_hodeco_map columns hoco_query_start
        hoco_target_start 0) fun r =>
      Except.ok (some (applyInsertions r.1 r.2.1), some r.2.2)

/-- `hodeco_paf_line` (src/main.rs lines 165-335). -/
def hodeco_paf_line (hoco_paf : PAFLine)
    (query_hodeco_maps target_hodeco_maps : List (String × List Nat)) :
    Except HodecoError PAFLine :=
  andThenE (lookupE query_hodeco_maps hoco_paf.query_sequence_name
      (HodecoError.queryMapNotFound hoco_paf.query_sequence_name)) fun query_hodeco_map =>
  andThenE (lookupE target_hodeco_maps hoco_paf.target_sequence_name
      (HodecoError.targetMapNotFound hoco_paf.target_sequence_name)) fun target_hodeco_map =>
  if hoco_paf.query_sequence_length = query_hodeco_map.length - 1 then
    if hoco_paf.target_sequence_length = target_hodeco_map.length - 1 then
      andThenE (lastE query_hodeco_map) fun query_sequence_length =>
      andThenE (lastE target_hodeco_map) fun target_sequence_length =>
      andThenE (idx query_hodeco_map hoco_paf.query_start_coordinate) fun query_start_coordinate =>
      andThenE (idx query_hodeco_map hoco_paf.query_end_coordinate) fun query_end_coordinate =>
      andThenE (idx target_hodeco_map hoco_paf.target_start_coordinate_on_original_strand)
        fun target_start_coordinate =>
      andThenE (idx target_hodeco_map hoco_paf.target_end_coordinate_on_original_strand)
        fun target_end_coordinate =>
      if (query_end_coordinate : Int) - (query_start_coordinate : Int) > 0 then
        if (target_end_coordinate : Int) - (target_start_coordinate : Int) > 0 then
          andThenE (hodecoCigarField query_hodeco_map target_hodeco_map
              hoco_paf.query_start_coordinate hoco_paf.target_start_coordinate_on_original_strand
              hoco_paf.cigar_string hoco_paf.number_of_matching_bases
              hoco_paf.number_of_bases_and_gaps) fun cig =>
          andThenE (hodecoDiffField query_hodeco_map target_hodeco_map
              hoco_paf.query_start_coordinate hoco_paf.target_start_coordinate_on_original_strand
              hoco_paf.difference_string hoco_paf.total_number_of_mismatches_and_gaps) fun dif =>
          Except.ok { hoco_paf with
            query_sequence_length := query_sequence_length,
            target_sequence_length := target_sequence_length,
            query_start_coordinate := query_start_coordinate,
            query_end_coordinate := query_end_coordinate,
            target_start_coordinate_on_original_strand := target_start_coordinate,
            target_end_coordinate_on_original_strand := target_end_coordinate,
            cigar_string := cig.1,
            number_of_matching_bases := cig.2.1,
            number_of_bases_and_gaps := cig.2.2,
            difference_string := dif.1,
            total_number_of_mismatches_and_gaps := dif.2,
            approximate_per_base_sequence_divergence :=
              Option.map
                (fun d => d * ((query_sequence_length : ℚ) /
                  (hoco_paf.query_sequence_length : ℚ)))
                hoco_paf.approximate_per_base_sequence_divergence,
            gap_compressed_per_base_sequence_divergence :=
              Option.map
                (fun d => d * ((query_sequence_length : ℚ) /
                  (hoco_paf.query_sequence_length : ℚ)))
                hoco_paf.gap_compressed_per_base_sequence_divergence }
        else Except.error HodecoError.nonPositiveTargetSpan
      else Except.error HodecoError.nonPositiveQuerySpan
    else Except.error HodecoError.targetLengthMismatch
  else Except.error HodecoError.queryLengthMismatch

/-! ### Inversion lemmas for the fallible steps -/

theorem andThenE_eq_ok {α β : Type} {x : Except HodecoError α} {f : α → Except HodecoError β}
    {b : β} : andThenE x f = Except.ok b ↔ ∃ a, x = Except.ok a ∧ f a = Except.ok b := by
  cases x <;> simp [andThenE]

theorem lookupE_eq_ok {maps : List (String × List Nat)} {name : String} {e : HodecoError}
    {m : List Nat} : lookupE maps name e = Except.ok m ↔ List.lookup name maps = some m := by
  unfold lookupE
  split
  · rename_i w hw; simp [hw]
  · rename_i hw; simp [hw]

theorem idx_eq_ok {table : List Nat} {i v : Nat} :
    idx table i = Except.ok v ↔ table[i]? = some v := by
  unfold idx
  split
  · rename_i w hw; simp [hw]
  · rename_i hw; simp [hw]

theorem lastE_eq_ok {table : List Nat} {v : Nat} :
    lastE table = Except.ok v ↔ table.getLast? = some v := by
  unfold lastE
  split
  · rename_i w hw; simp [hw]
  · rename_i hw; simp [hw]

theorem idx_ok_lt {table : List Nat} {i v : Nat} (h : idx table i = Except.ok v) :
    i < table.length := by
  rw [idx_eq_ok] at h
  exact (List.getElem?_eq_some.mp h).1

theorem idx_ok_getD {table : List Nat} {i v : Nat} (h : idx table i = Except.ok v) :
    table.getD i 0 = v := by
  rw [idx_eq_ok] at h
  rw [List.getD_eq_getElem?_getD, h]
  rfl

/-! ### Decomposition of a successful `hodeco_paf_line` run -/

/-- Any successful run of `hodeco_paf_line` decomposes into the lookup,
validation, coordinate-remap, CIGAR and difference stages, and those stages
determine every field of the output record. -/
theorem hodeco_ok_elim {r : PAFLine} {qms tms : List (String × List Nat)} {r' : PAFLine}
    (h : hodeco_paf_line r qms tms = Except.ok r') :
    ∃ qm tm nql ntl nqs nqe nts nte cig dif,
      List.lookup r.query_sequence_name qms = some qm ∧
      List.lookup r.target_sequence_name tms = some tm ∧
      r.query_sequence_length = qm.length - 1 ∧
      r.target_sequence_length = tm.length - 1 ∧
      lastE qm = Except.ok nql ∧
      lastE tm = Except.ok ntl ∧
      idx qm r.query_start_coordinate = Except.ok nqs ∧
      idx qm r.query_end_coordinate = Except.ok nqe ∧
      idx tm r.target_start_coordinate_on_original_strand = Except.ok nts ∧
      idx tm r.target_end_coordinate_on_original_strand = Except.ok nte ∧
      (nqe : Int) - (nqs : Int) > 0 ∧
      (nte : Int) - (nts : Int) > 0 ∧
      hodecoCigarField qm tm r.query_start_coordinate
        r.target_start_coordinate_on_original_strand r.cigar_string
        r.number_of_matching_bases r.number_of_bases_and_gaps = Except.ok cig ∧
      hodecoDiffField qm tm r.query_start_coordinate
        r.target_start_coordinate_on_original_strand r.difference_string
        r.total_number_of_mismatches_and_gaps = Except.ok dif ∧
      r' = { r with
        query_sequence_length := nql,
        target_sequence_length := ntl,
        query_start_coordinate := nqs,
        query_end_coordinate := nqe,
        target_start_coordinate_on_original_strand := nts,
        target_end_coordinate_on_original_strand := nte,
        cigar_string := cig.1,
        number_of_matching_bases := cig.2.1,
        number_of_bases_and_gaps := cig.2.2,
        difference_string := dif.1,
        total_number_of_mismatches_and_gaps := dif.2,
        approximate_per_base_sequence_divergence :=
          Option.map (fun d => d * ((nql : ℚ) / (r.query_sequence_length : ℚ)))
            r.approximate_per_base_sequence_divergence,
        gap_compressed_per_base_sequence_divergence :=
          Option.map (fun d => d * ((nql : ℚ) / (r.query_sequence_length : ℚ)))
            r.gap_compressed_per_base_sequence_divergence } := by
  unfold hodeco_paf_line at h
  simp only [andThenE_eq_ok] at h
  obtain ⟨qm, hq, tm, ht, h⟩ := h
  split at h
  case isFalse => simp at h
  rename_i hvq
  split at h
  case isFalse => simp at h
  rename_i hvt
  simp only [andThenE_eq_ok] at h
  obtain ⟨nql, hlq, ntl, hlt, nqs, h1, nqe, h2, nts, h3, nte, h4, h⟩ := h
  split at h
  case isFalse => simp at h
  rename_i hspanq
  split at h
  case isFalse => simp at h
  rename_i hspant
  simp only [andThenE_eq_ok] at h
  obtain ⟨cig, hcig, dif, hdif, h⟩ := h
  injection h with h
  subst h
  exact ⟨qm, tm, nql, ntl, nqs, nqe, nts, nte, cig, dif, lookupE_eq_ok.mp hq,
    lookupE_eq_ok.mp ht, hvq, hvt, hlq, hlt, h1, h2, h3, h4, hspanq, hspant, hcig, hdif, rfl⟩

/-! ### The CIGAR walk (claims C1 and C4) -/

/-- Cursor walk as the specification words it (C1): both cursors start at the
record's pre-remap start coordinates; `Match n` is overwritten with
`query_table[cursor+n] - query_table[cursor]` and advances both cursors by
`n`; `Insertion` advances only the query cursor; `Deletion` reads the target
table and advances only the target cursor; a `Mismatch` run has no result. -/
def cigarWalkSpec (query_table target_table : List Nat) :
    List CigarColumn → Nat → Nat → Option (List CigarColumn)
  | [], _, _ => some []
  | CigarColumn.Match n :: rest, query_cursor, target_cursor =>
      Option.map
        (fun rest' => CigarColumn.Match
          (query_table.getD (query_cursor + n) 0 - query_table.getD query_cursor 0) :: rest')
        (cigarWalkSpec query_table target_table rest (query_cursor + n) (target_cursor + n))
  | CigarColumn.Insertion n :: rest, query_cursor, target_cursor =>
      Option.map
        (fun rest' => CigarColumn.Insertion
          (query_table.getD (query_cursor + n) 0 - query_table.getD query_cursor 0) :: rest')
        (cigarWalkSpec query_table target_table rest (query_cursor + n) target_cursor)
  | CigarColumn.Deletion n :: rest, query_cursor, target_cursor =>
      Option.map
        (fun rest' => CigarColumn.Deletion
          (target_table.getD (target_cursor + n) 0 - target_table.getD target_cursor 0) :: rest')
        (cigarWalkSpec query_table target_table rest query_cursor (target_cursor + n))
  | CigarColumn.Mismatch _ :: _, _, _ => none

/-- Count carried by a CIGAR column. -/
def cigarColumnCount : CigarColumn → Nat
  | CigarColumn.Match n => n
  | CigarColumn.Insertion n => n
  | CigarColumn.Deletion n => n
  | CigarColumn.Mismatch n => n

/-- Sum of all run counts of a CIGAR string. -/
def sumCounts (cols : List CigarColumn) : Nat := (cols.map cigarColumnCount).sum

/-- Count carried by a CIGAR column when it is a `Match`, else 0. -/
def matchCount : CigarColumn → Nat
  | CigarColumn.Match n => n
  | _ => 0

/-- Sum of the `Match` run counts of a CIGAR string. -/
def sumMatchCounts (cols : List CigarColumn) : Nat := (cols.map matchCount).sum

/-- The source CIGAR walk refines the specification's cursor walk, and can
only succeed on a Mismatch-free run sequence. -/
theorem hodecoCigar_ok_walk {qm tm : List Nat} {cols : List CigarColumn} :
    ∀ {q t : Nat} {res : List CigarColumn × Nat × Nat},
      hodecoCigar qm tm cols q t = Except.ok res →
      cigarWalkSpec qm tm cols q t = some res.1 ∧ ∀ n, CigarColumn.Mismatch n ∉ cols := by
  induction cols with
  | nil =>
      intro q t res h
      unfold hodecoCigar at h
      injection h with h
      subst h
      simp [cigarWalkSpec]
  | cons col rest ih =>
      intro q t res h
      cases col with
      | Match n =>
          unfold hodecoCigar at h
          simp only [andThenE_eq_ok] at h
          obtain ⟨a, ha, b, hb, r0, hr, h⟩ := h
          injection h with h
          subst h
          obtain ⟨hw, hnm⟩ := ih hr
          refine ⟨by simp [cigarWalkSpec, hw, idx_eq_ok.mp ha, idx_eq_ok.mp hb], ?_⟩
          intro k hk
          simp only [List.mem_cons] at hk
          rcases hk with hk | hk
          · exact CigarColumn.noConfusion hk
          · exact hnm k hk
      | Insertion n =>
          unfold hodecoCigar at h
          simp only [andThenE_eq_ok] at h
          obtain ⟨a, ha, b, hb, r0, hr, h⟩ := h
          injection h with h
          subst h
          obtain ⟨hw, hnm⟩ := ih hr
          refine ⟨by simp [cigarWalkSpec, hw, idx_eq_ok.mp ha, idx_eq_ok.mp hb], ?_⟩
          intro k hk
          simp only [List.mem_cons] at hk
          rcases hk with hk | hk
          · exact CigarColumn.noConfusion hk
          · exact hnm k hk
      | Deletion n =>
          unfold hodecoCigar at h
          simp only [andThenE_eq_ok] at h
          obtain ⟨a, ha, b, hb, r0, hr, h⟩ := h
          injection h with h
          subst h
          obtain ⟨hw, hnm⟩ := ih hr
          refine ⟨by simp [cigarWalkSpec, hw, idx_eq_ok.mp ha, idx_eq_ok.mp hb], ?_⟩
          intro k hk
          simp only [List.mem_cons] at hk
          rcases hk with hk | hk
          · exact CigarColumn.noConfusion hk
          · exact hnm k hk
      | Mismatch n =>
          unfold hodecoCigar at h
          exact Except.noConfusion h

/-- The accumulators returned by the source CIGAR walk are the sums of the
rewritten run counts. -/
theorem hodecoCigar_ok_sums {qm tm : List Nat} {cols : List CigarColumn} :
    ∀ {q t : Nat} {res : List CigarColumn × Nat × Nat},
      hodecoCigar qm tm cols q t = Except.ok res →
      res.2.1 = sumMatchCounts res.1 ∧ res.2.2 = sumCounts res.1 := by
  induction cols with
  | nil =>
      intro q t res h
      unfold hodecoCigar at h
      injection h with h
      subst h
      simp [sumMatchCounts, sumCounts]
  | cons col rest ih =>
      intro q t res h
      cases col with
      | Match n =>
          unfold hodecoCigar at h
          simp only [andThenE_eq_ok] at h
          obtain ⟨a, ha, b, hb, r0, hr, h⟩ := h
          injection h with h
          subst h
          obtain ⟨h1, h2⟩ := ih hr
          simp [sumMatchCounts, sumCounts, matchCount, cigarColumnCount, h1, h2]
      | Insertion n =>
          unfold hodecoCigar at h
          simp only [andThenE_eq_ok] at h
          obtain ⟨a, ha, b, hb, r0, hr, h⟩ := h
          injection h with h
          subst h
          obtain ⟨h1, h2⟩ := ih hr
          simp [sumMatchCounts, sumCounts, matchCount, cigarColumnCount, h1, h2]
      | Deletion n =>
          unfold hodecoCigar at h
          simp only [andThenE_eq_ok] at h
          obtain ⟨a, ha, b, hb, r0, hr, h⟩ := h
          injection h with h
          subst h
          obtain ⟨h1, h2⟩ := ih hr
          simp [sumMatchCounts, sumCounts, matchCount, cigarColumnCount, h1, h2]
      | Mismatch n =>
          unfold hodecoCigar at h
          exact Except.noConfusion h

deriving instance DecidableEq for Except

set_option synthInstance.maxSize 512 in
instance : DecidableEq (List DifferenceColumn × List (Nat × Nat × Char × Char) × Nat) :=
  inferInstance

/-- C1: for a record with a run-length operation sequence that the
decompressor accepts, the output CIGAR string is the specification's cursor
walk started at the record's pre-remap start coordinates (Match reads the
query table and advances both cursors, Insertion reads the query table and
advances only the query cursor, Deletion reads the target table and advances
only the target cursor), and a Mismatch run can never occur in an accepted
sequence (it is a fatal error). -/
theorem c1_cigar_runlength_walk {r : PAFLine} {qms tms : List (String × List Nat)}
    {r' : PAFLine} {cols : List CigarColumn}
    (hok : hodeco_paf_line r qms tms = Except.ok r')
    (hcig : r.cigar_string = some cols) :
    ∃ qm tm,
      List.lookup r.query_sequence_name qms = some qm ∧
      List.lookup r.target_sequence_name tms = some tm ∧
      r'.cigar_string = cigarWalkSpec qm tm cols r.query_start_coordinate
        r.target_start_coordinate_on_original_strand ∧
      ∀ n, CigarColumn.Mismatch n ∉ cols := by
  obtain ⟨qm, tm, nql, ntl, nqs, nqe, nts, nte, cig, dif, hq, ht, _, _, _, _, _, _, _, _, _, _,
    hcigf, hdiff, hr'⟩ := hodeco_ok_elim hok
  subst hr'
  rw [hcig] at hcigf
  simp only [hodecoCigarField, andThenE_eq_ok] at hcigf
  obtain ⟨cres, hcres, hcigf⟩ := hcigf
  injection hcigf with hcigf
  subst hcigf
  obtain ⟨hw, hnm⟩ := hodecoCigar_ok_walk hcres
  exact ⟨qm, tm, hq, ht, by simp [hw], hnm⟩

/-- Offset table of the spec's concrete scenario: compressed length 3,
decompressed length 4, homopolymer run of 2 at compressed position 1. -/
def exampleTable : List Nat := [0, 1, 3, 4]

/-- Compressed record of the concrete scenario: query span `[0,3)`, one
run-length `Match(3)`, plus divergence fields to exercise the scaling. -/
def rC1 : PAFLine where
  query_sequence_name := "q"
  query_sequence_length := 3
  query_start_coordinate := 0
  query_end_coordinate := 3
  strand := true
  target_sequence_name := "t"
  target_sequence_length := 3
  target_start_coordinate_on_original_strand := 0
  target_end_coordinate_on_original_strand := 3
  number_of_matching_bases := 3
  number_of_bases_and_gaps := 3
  mapping_quality := 60
  cigar_string := some [CigarColumn.Match 3]
  difference_string := none
  total_number_of_mismatches_and_gaps := none
  approximate_per_base_sequence_divergence := none
  gap_compressed_per_base_sequence_divergence := none

/-- Decompressed form of `rC1` under `exampleTable` on both sides. -/
def rC1out : PAFLine := { rC1 with
  query_sequence_length := 4,
  target_sequence_length := 4,
  query_start_coordinate := 0,
  query_end_coordinate := 4,
  target_start_coordinate_on_original_strand := 0,
  target_end_coordinate_on_original_strand := 4,
  cigar_string := some [CigarColumn.Match 4],
  number_of_matching_bases := 4,
  number_of_bases_and_gaps := 4 }

/-- Witness for C1: on table `[0,1,3,4]` a single `Match(3)` starting at query
coordinate 0 expands to `Match(4)`. -/
theorem c1_witness :
    hodeco_paf_line rC1 [("q", exampleTable)] [("t", exampleTable)] = Except.ok rC1out ∧
    rC1out.cigar_string = some [CigarColumn.Match 4] := by
  constructor
  · decide
  · obtain ⟨qm, tm, hq, ht, hw, -⟩ :=
      @c1_cigar_runlength_walk rC1 [("q", exampleTable)] [("t", exampleTable)] rC1out
        [CigarColumn.Match 3] (by decide) rfl
    have h0 : List.lookup rC1.query_sequence_name [("q", exampleTable)] = some exampleTable := by
      decide
    have h1 : List.lookup rC1.target_sequence_name [("t", exampleTable)] = some exampleTable := by
      decide
    rw [h0] at hq
    rw [h1] at ht
    obtain rfl : exampleTable = qm := Option.some.inj hq
    obtain rfl : exampleTable = tm := Option.some.inj ht
    rw [hw]
    decide

/-- C4: for an accepted record with a run-length operation sequence, the
output bases-and-gaps count is the sum of all expanded run counts and the
output matching-base count is the sum of the expanded Match counts; without a
run-length sequence both fields keep their input values. -/
theorem c4_cigar_sums {r : PAFLine} {qms tms : List (String × List Nat)} {r' : PAFLine}
    (hok : hodeco_paf_line r qms tms = Except.ok r') :
    (∀ cols, r.cigar_string = some cols →
      ∃ cols', r'.cigar_string = some cols' ∧
        r'.number_of_bases_and_gaps = sumCounts cols' ∧
        r'.number_of_matching_bases = sumMatchCounts cols') ∧
    (r.cigar_string = none →
      r'.number_of_matching_bases = r.number_of_matching_bases ∧
      r'.number_of_bases_and_gaps = r.number_of_bases_and_gaps) := by
  obtain ⟨qm, tm, nql, ntl, nqs, nqe, nts, nte, cig, dif, hq, ht, _, _, _, _, _, _, _, _, _, _,
    hcigf, hdiff, hr'⟩ := hodeco_ok_elim hok
  subst hr'
  constructor
  · intro cols hc
    rw [hc] at hcigf
    simp only [hodecoCigarField, andThenE_eq_ok] at hcigf
    obtain ⟨cres, hcres, hcigf⟩ := hcigf
    injection hcigf with hcigf
    subst hcigf
    obtain ⟨h1, h2⟩ := hodecoCigar_ok_sums hcres
    exact ⟨cres.1, rfl, h2, h1⟩
  · intro hc
    rw [hc] at hcigf
    simp only [hodecoCigarField] at hcigf
    injection hcigf with hcigf
    subst hcigf
    exact ⟨rfl, rfl⟩

/-- Witness for C4: the expanded `Match(4)` yields bases-and-gaps 4 and
matching-base count 4. -/
theorem c4_witness :
    hodeco_paf_line rC1 [("q", exampleTable)] [("t", exampleTable)] = Except.ok rC1out ∧
    rC1out.number_of_bases_and_gaps = sumCounts [CigarColumn.Match 4] ∧
    rC1out.number_of_matching_bases = sumMatchCounts [CigarColumn.Match 4] := by
  refine ⟨by decide, ?_⟩
  obtain ⟨cols', hc, h2, h3⟩ :=
    (@c4_cigar_sums rC1 [("q", exampleTable)] [("t", exampleTable)] rC1out (by decide)).1
      [CigarColumn.Match 3] rfl
  have hcc : some [CigarColumn.Match 4] = some cols' := hc
  obtain rfl : [CigarColumn.Match 4] = cols' := Option.some.inj hcc
  exact ⟨h2, h3⟩

/-- C6: every record the decompressor returns has strictly positive remapped
spans on both query and target (a non-positive span is a fatal error, so such
a record is never returned). -/
theorem c6_strict_spans {r : PAFLine} {qms tms : List (String × List Nat)} {r' : PAFLine}
    (hok : hodeco_paf_line r qms tms = Except.ok r') :
    r'.query_start_coordinate < r'.query_end_coordinate ∧
    r'.target_start_coordinate_on_original_strand <
      r'.target_end_coordinate_on_original_strand := by
  obtain ⟨qm, tm, nql, ntl, nqs, nqe, nts, nte, cig, dif, hq, ht, _, _, _, _, _, _, _, _,
    hsp1, hsp2, hcigf, hdiff, hr'⟩ := hodeco_ok_elim hok
  subst hr'
  refine ⟨?_, ?_⟩
  · show nqs < nqe
    omega
  · show nts < nte
    omega

/-- Witness for C6 at the concrete scenario record. -/
theorem c6_witness :
    hodeco_paf_line rC1 [("q", exampleTable)] [("t", exampleTable)] = Except.ok rC1out ∧
    rC1out.query_start_coordinate < rC1out.query_end_coordinate ∧
    rC1out.target_start_coordinate_on_original_strand <
      rC1out.target_end_coordinate_on_original_strand := by
  refine ⟨by decide, ?_⟩
  exact @c6_strict_spans rC1 [("q", exampleTable)] [("t", exampleTable)] rC1out (by decide)

/-- C7: when a divergence ratio field is present, the output field is exactly
the old value multiplied by new query length over old query length, for both
divergence fields (`f64` modelled as exact rationals). -/
theorem c7_divergence_scaling {r : PAFLine} {qms tms : List (String × List Nat)} {r' : PAFLine}
    (hok : hodeco_paf_line r qms tms = Except.ok r') :
    (∀ d, r.approximate_per_base_sequence_divergence = some d →
      r'.approximate_per_base_sequence_divergence =
        some (d * ((r'.query_sequence_length : ℚ) / (r.query_sequence_length : ℚ)))) ∧
    (∀ d, r.gap_compressed_per_base_sequence_divergence = some d →
      r'.gap_compressed_per_base_sequence_divergence =
        some (d * ((r'.query_sequence_length : ℚ) / (r.query_sequence_length : ℚ)))) := by
  obtain ⟨qm, tm, nql, ntl, nqs, nqe, nts, nte, cig, dif, hq, ht, _, _, _, _, _, _, _, _, _, _,
    hcigf, hdiff, hr'⟩ := hodeco_ok_elim hok
  subst hr'
  constructor
  · intro d hd
    show Option.map _ r.approximate_per_base_sequence_divergence = _
    rw [hd]
    rfl
  · intro d hd
    show Option.map _ r.gap_compressed_per_base_sequence_divergence = _
    rw [hd]
    rfl

/-- Compressed record with divergence fields present. -/
def rC7 : PAFLine := { rC1 with
  approximate_per_base_sequence_divergence := some (1 / 10 : ℚ),
  gap_compressed_per_base_sequence_divergence := some (1 / 5 : ℚ) }

/-- Decompressed form of `rC7`; the divergence fields carry the unreduced
scaling products the tool computes. -/
def rC7out : PAFLine := { rC1out with
  approximate_per_base_sequence_divergence :=
    some ((1 / 10 : ℚ) * (((4 : Nat) : ℚ) / ((3 : Nat) : ℚ))),
  gap_compressed_per_base_sequence_divergence :=
    some ((1 / 5 : ℚ) * (((4 : Nat) : ℚ) / ((3 : Nat) : ℚ))) }

/-- Witness for C7: query length 3 decompresses to 4, so both divergence
fields are multiplied by 4/3. -/
theorem c7_witness :
    hodeco_paf_line rC7 [("q", exampleTable)] [("t", exampleTable)] = Except.ok rC7out ∧
    rC7out.approximate_per_base_sequence_divergence =
      some ((1 / 10 : ℚ) * ((rC7out.query_sequence_length : ℚ) / (rC7.query_sequence_length : ℚ))) ∧
    rC7out.gap_compressed_per_base_sequence_divergence =
      some ((1 / 5 : ℚ) * ((rC7out.query_sequence_length : ℚ) / (rC7.query_sequence_length : ℚ))) := by
  have hok : hodeco_paf_line rC7 [("q", exampleTable)] [("t", exampleTable)] =
      Except.ok rC7out := rfl
  have h := @c7_divergence_scaling rC7 [("q", exampleTable)] [("t", exampleTable)] rC7out hok
  exact ⟨hok, h.1 (1 / 10 : ℚ) rfl, h.2 (1 / 5 : ℚ) rfl⟩

/-- C9: a record whose query (resp. target) name is absent from the
corresponding offset-table store makes the decompressor fail fatally with an
error naming the missing sequence; no record is returned. -/
theorem c9_missing_table {r : PAFLine} {qms tms : List (String × List Nat)} :
    (List.lookup r.query_sequence_name qms = none →
      hodeco_paf_line r qms tms =
        Except.error (HodecoError.queryMapNotFound r.query_sequence_name)) ∧
    (∀ qm, List.lookup r.query_sequence_name qms = some qm →
      List.lookup r.target_sequence_name tms = none →
      hodeco_paf_line r qms tms =
        Except.error (HodecoError.targetMapNotFound r.target_sequence_name)) := by
  constructor
  · intro h
    unfold hodeco_paf_line
    simp [lookupE, h, andThenE]
  · intro qm hq h
    unfold hodeco_paf_line
    simp [lookupE, hq, h, andThenE]

/-- Witness for C9: the empty store makes the run fail naming "q". -/
theorem c9_witness :
    hodeco_paf_line rC1 [] [("t", exampleTable)] =
      Except.error (HodecoError.queryMapNotFound "q") ∧
    hodeco_paf_line rC1 [("q", exampleTable)] [] =
      Except.error (HodecoError.targetMapNotFound "t") := by
  exact ⟨(@c9_missing_table rC1 [] [("t", exampleTable)]).1 rfl,
    (@c9_missing_table rC1 [("q", exampleTable)] []).2 exampleTable (by decide) rfl⟩

/-- C10: the decompressor never changes the names, the strand flag or the
mapping quality; without a run-length sequence the matching-base and
bases-and-gaps counts are untouched, and without a difference sequence the
total-mismatches-and-gaps field is untouched. -/
theorem c10_frame {r : PAFLine} {qms tms : List (String × List Nat)} {r' : PAFLine}
    (hok : hodeco_paf_line r qms tms = Except.ok r') :
    r'.query_sequence_name = r.query_sequence_name ∧
    r'.target_sequence_name = r.target_sequence_name ∧
    r'.strand = r.strand ∧
    r'.mapping_quality = r.mapping_quality ∧
    (r.cigar_string = none →
      r'.number_of_matching_bases = r.number_of_matching_bases ∧
      r'.number_of_bases_and_gaps = r.number_of_bases_and_gaps) ∧
    (r.difference_string = none →
      r'.total_number_of_mismatches_and_gaps = r.total_number_of_mismatches_and_gaps) := by
  obtain ⟨qm, tm, nql, ntl, nqs, nqe, nts, nte, cig, dif, hq, ht, _, _, _, _, _, _, _, _, _, _,
    hcigf, hdiff, hr'⟩ := hodeco_ok_elim hok
  subst hr'
  refine ⟨rfl, rfl, rfl, rfl, ?_, ?_⟩
  · intro hc
    rw [hc] at hcigf
    simp only [hodecoCigarField] at hcigf
    injection hcigf with hcigf
    subst hcigf
    exact ⟨rfl, rfl⟩
  · intro hd
    rw [hd] at hdiff
    simp only [hodecoDiffField] at hdiff
    injection hdiff with hdiff
    subst hdiff
    rfl

/-- Witness for C10 at the concrete scenario record (difference sequence
absent, so the total field also survives unchanged). -/
theorem c10_witness :
    hodeco_paf_line rC1 [("q", exampleTable)] [("t", exampleTable)] = Except.ok rC1out ∧
    rC1out.query_sequence_name = rC1.query_sequence_name ∧
    rC1out.strand = rC1.strand ∧
    rC1out.mapping_quality = rC1.mapping_quality ∧
    rC1out.total_number_of_mismatches_and_gaps = rC1.total_number_of_mismatches_and_gaps := by
  have h := @c10_frame rC1 [("q", exampleTable)] [("t", exampleTable)] rC1out (by decide)
  exact ⟨by decide, h.1, h.2.2.1, h.2.2.2.1, h.2.2.2.2.2 rfl⟩

/-- Last entry of a table equals its entry at index `length - 1` (under the
shared default 0). -/
theorem getLastD_eq_getD (l : List Nat) : l.getLastD 0 = l.getD (l.length - 1) 0 := by
  rw [List.getLastD_eq_getLast? 0 l, List.getLast?_eq_getElem? l, List.getD_eq_getElem?_getD]

/-- C3: step-1 validation (record lengths against table lengths, any
violation fatal), scalar remap of the two lengths to the tables' last entries
and of the four coordinates through the tables at the old coordinate values,
and the resulting round trip of the full query span `[0, query_length)` to
`[0, query_table[last])`. -/
theorem c3_scalar_remap {r : PAFLine} {qms tms : List (String × List Nat)} :
    (∀ r', hodeco_paf_line r qms tms = Except.ok r' →
      ∃ qm tm,
        List.lookup r.query_sequence_name qms = some qm ∧
        List.lookup r.target_sequence_name tms = some tm ∧
        r.query_sequence_length = qm.length - 1 ∧
        r.target_sequence_length = tm.length - 1 ∧
        r'.query_sequence_length = qm.getLastD 0 ∧
        r'.target_sequence_length = tm.getLastD 0 ∧
        r'.query_start_coordinate = qm.getD r.query_start_coordinate 0 ∧
        r'.query_end_coordinate = qm.getD r.query_end_coordinate 0 ∧
        r'.target_start_coordinate_on_original_strand =
          tm.getD r.target_start_coordinate_on_original_strand 0 ∧
        r'.target_end_coordinate_on_original_strand =
          tm.getD r.target_end_coordinate_on_original_strand 0 ∧
        (qm.getD 0 0 = 0 → r.query_start_coordinate = 0 →
          r.query_end_coordinate = r.query_sequence_length →
          r'.query_start_coordinate = 0 ∧
          r'.query_end_coordinate = r'.query_sequence_length)) ∧
    (∀ qm tm, List.lookup r.query_sequence_name qms = some qm →
      List.lookup r.target_sequence_name tms = some tm →
      r.query_sequence_length ≠ qm.length - 1 →
      hodeco_paf_line r qms tms = Except.error HodecoError.queryLengthMismatch) ∧
    (∀ qm tm, List.lookup r.query_sequence_name qms = some qm →
      List.lookup r.target_sequence_name tms = some tm →
      r.query_sequence_length = qm.length - 1 →
      r.target_sequence_length ≠ tm.length - 1 →
      hodeco_paf_line r qms tms = Except.error HodecoError.targetLengthMismatch) := by
  refine ⟨?_, ?_, ?_⟩
  · intro r' hok
    obtain ⟨qm, tm, nql, ntl, nqs, nqe, nts, nte, cig, dif, hq, ht, hvq, hvt, hlq, hlt, h1, h2,
      h3, h4, _, _, hcigf, hdiff, hr'⟩ := hodeco_ok_elim hok
    subst hr'
    rw [lastE_eq_ok] at hlq hlt
    have hql : qm.getLastD 0 = nql := by
      rw [List.getLastD_eq_getLast? 0 qm, hlq]
      rfl
    have htl : tm.getLastD 0 = ntl := by
      rw [List.getLastD_eq_getLast? 0 tm, hlt]
      rfl
    refine ⟨qm, tm, hq, ht, hvq, hvt, hql.symm, htl.symm, (idx_ok_getD h1).symm,
      (idx_ok_getD h2).symm, (idx_ok_getD h3).symm, (idx_ok_getD h4).symm, ?_⟩
    intro h00 hs he
    constructor
    · show nqs = 0
      rw [← idx_ok_getD h1, hs, h00]
    · show nqe = nql
      rw [← idx_ok_getD h2, he, hvq, ← getLastD_eq_getD, hql]
  · intro qm tm hq ht hne
    unfold hodeco_paf_line
    simp [lookupE, hq, ht, andThenE, hne]
  · intro qm tm hq ht hvq hne
    unfold hodeco_paf_line
    simp [lookupE, hq, ht, andThenE, hvq, hne]

/-- Witness for C3: the scenario record spans the full query `[0,3)`, and its
decompressed span is exactly `[0,4) = [0, exampleTable.getLastD 0)`. -/
theorem c3_witness :
    hodeco_paf_line rC1 [("q", exampleTable)] [("t", exampleTable)] = Except.ok rC1out ∧
    rC1out.query_sequence_length = 4 ∧
    rC1out.query_start_coordinate = 0 ∧
    rC1out.query_end_coordinate = rC1out.query_sequence_length := by
  refine ⟨by decide, ?_⟩
  obtain ⟨qm, tm, hq, ht, hvq, hvt, hql, htl, hqs, hqe, hts, hte, hround⟩ :=
    (@c3_scalar_remap rC1 [("q", exampleTable)] [("t", exampleTable)]).1 rC1out (by decide)
  have h0 : List.lookup rC1.query_sequence_name [("q", exampleTable)] = some exampleTable := by
    decide
  rw [h0] at hq
  obtain rfl : exampleTable = qm := Option.some.inj hq
  obtain ⟨ha, hb⟩ := hround (by decide) rfl rfl
  refine ⟨?_, ha, hb⟩
  rw [hql]
  decide

/-! ### The difference walk (claims C2 and C5) -/

/-- Table non-decreasing on adjacent entries (spec §3 invariant). -/
def TableLE (table : List Nat) : Prop :=
  ∀ i < table.length - 1, table.getD i 0 ≤ table.getD (i + 1) 0

/-- Table strictly increasing on adjacent entries (each compressed position
stands for at least one decompressed base). -/
def TableLT (table : List Nat) : Prop :=
  ∀ i < table.length - 1, table.getD i 0 < table.getD (i + 1) 0

instance decidableTableLE (table : List Nat) : Decidable (TableLE table) :=
  inferInstanceAs (Decidable (∀ i < table.length - 1, table.getD i 0 ≤ table.getD (i + 1) 0))

instance decidableTableLT (table : List Nat) : Decidable (TableLT table) :=
  inferInstanceAs (Decidable (∀ i < table.length - 1, table.getD i 0 < table.getD (i + 1) 0))

theorem tableLE_getD_mono {m : List Nat} (hm : TableLE m) :
    ∀ j i, i ≤ j → j < m.length → m.getD i 0 ≤ m.getD j 0 := by
  intro j
  induction j with
  | zero =>
      intro i hij _
      obtain rfl : i = 0 := Nat.le_zero.mp hij
      exact Nat.le_refl _
  | succ k ih =>
      intro i hij hk
      rcases Nat.eq_or_lt_of_le hij with rfl | hlt
      · exact Nat.le_refl _
      · have h1 : m.getD i 0 ≤ m.getD k 0 := ih i (by omega) (by omega)
        have h2 : m.getD k 0 ≤ m.getD (k + 1) 0 := hm k (by omega)
        omega

/-- Per-character expansion as the specification words it (C5): character
number `i` of the string is repeated `table[cursor+i+1] - table[cursor+i]`
times. -/
def specStringExpand (table : List Nat) : List Char → Nat → List Char
  | [], _ => []
  | character :: rest, cursor =>
      List.replicate (table.getD (cursor + 1) 0 - table.getD cursor 0) character
        ++ specStringExpand table rest (cursor + 1)

/-- Entry of a slice `m[t..t+n+1]` equals the entry of `m` at the absolute
index. -/
theorem slice_getD {m : List Nat} {t n k : Nat} (hk : k < n + 1) (_hm : t + k < m.length) :
    ((m.drop t).take (n + 1)).getD k 0 = m.getD (t + k) 0 := by
  rw [List.getD_eq_getElem?_getD, List.getD_eq_getElem?_getD, List.getElem?_take, if_pos hk,
    List.getElem?_drop]

/-- The source string decompression called on the slice
`m[t .. t + s.length + 1]` computes the specification's absolutely indexed
per-character expansion. -/
theorem hodecoStringFrom_slice {m : List Nat} {t n : Nat} (h : t + n + 1 ≤ m.length) :
    ∀ (s : List Char) (j : Nat), j + s.length ≤ n →
      hodecoStringFrom ((m.drop t).take (n + 1)) s j = specStringExpand m s (t + j) := by
  intro s
  induction s with
  | nil => intro j _; rfl
  | cons c rest ih =>
      intro j hj
      show List.replicate _ c ++ _ = List.replicate _ c ++ _
      have hj1 : j + 1 ≤ n := by
        have := rest.length
        simp only [List.length_cons] at hj
        omega
      have e1 : ((m.drop t).take (n + 1)).getD j 0 = m.getD (t + j) 0 :=
        slice_getD (by omega) (by omega)
      have e2 : ((m.drop t).take (n + 1)).getD (j + 1) 0 = m.getD (t + (j + 1)) 0 :=
        slice_getD (by omega) (by omega)
      rw [e1, e2, ih (j + 1) (by simp only [List.length_cons] at hj; omega)]
      rfl

theorem homopolymer_decompress_string_slice {m : List Nat} {t : Nat} {s : List Char}
    (h : t + s.length + 1 ≤ m.length) :
    homopolymer_decompress_string s ((m.drop t).take (s.length + 1)) =
      specStringExpand m s t := by
  have := hodecoStringFrom_slice h s 0 (by omega)
  simpa [homopolymer_decompress_string] using this

/-- Telescoped length of the per-character expansion on a non-decreasing
table. -/
theorem specStringExpand_length {m : List Nat} (hm : TableLE m) :
    ∀ (s : List Char) (t : Nat), t + s.length < m.length →
      (specStringExpand m s t).length = m.getD (t + s.length) 0 - m.getD t 0 := by
  intro s
  induction s with
  | nil =>
      intro t _
      simp [specStringExpand]
  | cons c rest ih =>
      intro t hb
      simp only [List.length_cons] at hb
      have hrest := ih (t + 1) (by omega)
      have h1 : m.getD t 0 ≤ m.getD (t + 1) 0 :=
        tableLE_getD_mono hm (t + 1) t (by omega) (by omega)
      have h2 : m.getD (t + 1) 0 ≤ m.getD (t + 1 + rest.length) 0 :=
        tableLE_getD_mono hm (t + 1 + rest.length) (t + 1) (by omega) (by omega)
      have h3 : t + 1 + rest.length = t + (rest.length + 1) := by omega
      simp only [specStringExpand, List.length_append, List.length_replicate, List.length_cons,
        hrest]
      rw [← h3]
      omega

/-- Build-a-new-sequence difference walk as the specification words it
(C2/C5): `Match` expands through the query table advancing both cursors;
`Deletion`/`Insertion` replace their character strings by the per-character
expansion and advance one cursor by the compressed string length, adding the
decompressed length to the accumulator; a `Mismatch` becomes
`query_table[c+1] - query_table[c]` identical mismatch entries while only
`query_table[c+1] - query_table[c] - 1` is added to the accumulator, and both
cursors advance by 1. -/
def diffWalkSpec (query_table target_table : List Nat) :
    List DifferenceColumn → Nat → Nat → List DifferenceColumn × Nat
  | [], _, _ => ([], 0)
  | DifferenceColumn.Match len :: rest, q, t =>
      let r := diffWalkSpec query_table target_table rest (q + len) (t + len)
      (DifferenceColumn.Match (query_table.getD (q + len) 0 - query_table.getD q 0) :: r.1, r.2)
  | DifferenceColumn.Deletion s :: rest, q, t =>
      let r := diffWalkSpec query_table target_table rest q (t + s.length)
      (DifferenceColumn.Deletion (specStringExpand target_table s t) :: r.1,
        (specStringExpand target_table s t).length + r.2)
  | DifferenceColumn.Insertion s :: rest, q, t =>
      let r := diffWalkSpec query_table target_table rest (q + s.length) t
      (DifferenceColumn.Insertion (specStringExpand query_table s q) :: r.1,
        (specStringExpand query_table s q).length + r.2)
  | DifferenceColumn.Mismatch reference query :: rest, q, t =>
      let r := diffWalkSpec query_table target_table rest (q + 1) (t + 1)
      (List.replicate (query_table.getD (q + 1) 0 - query_table.getD q 0)
          (DifferenceColumn.Mismatch reference query) ++ r.1,
        (query_table.getD (q + 1) 0 - query_table.getD q 0 - 1) + r.2)

/-- Deferred-insertion indices shifted down by `k`. -/
def shiftInsertions (ins : List (Nat × Nat × Char × Char)) (k : Nat) :
    List (Nat × Nat × Char × Char) :=
  ins.map (fun e => (e.1 - k, e.2))

theorem shiftInsertions_zero (ins : List (Nat × Nat × Char × Char)) :
    shiftInsertions ins 0 = ins := by
  simp [shiftInsertions]

/-- Inserting `n` copies at position 0 prepends `n` copies. -/
theorem insertCopies_zero (l : List DifferenceColumn) (n : Nat) (a b : Char) :
    insertCopies l 0 n a b = List.replicate n (DifferenceColumn.Mismatch a b) ++ l := by
  induction n generalizing l with
  | zero => rfl
  | succ k ih =>
      show insertCopies (DifferenceColumn.Mismatch a b :: l) 0 k a b = _
      rw [ih, List.replicate_succ' k, List.append_assoc]
      rfl

/-- Inserting at a positive position skips the head. -/
theorem insertCopies_cons_succ (x : DifferenceColumn) (l : List DifferenceColumn)
    (j n : Nat) (a b : Char) :
    insertCopies (x :: l) (j + 1) n a b = x :: insertCopies l j n a b := by
  induction n generalizing l with
  | zero => rfl
  | succ k ih =>
      show insertCopies (vecInsert _ (j + 1) (x :: l)) (j + 1) k a b = _
      show insertCopies (x :: vecInsert _ j l) (j + 1) k a b = _
      rw [ih]
      rfl

/-- Applying insertions that all target positions ≥ 1 skips the head, the
positions dropping by one. -/
theorem applyInsertions_cons {x : DifferenceColumn} {l : List DifferenceColumn}
    {ins : List (Nat × Nat × Char × Char)} (h : ∀ e ∈ ins, 1 ≤ e.1) :
    applyInsertions (x :: l) ins =
      x :: applyInsertions l (ins.map (fun e => (e.1 - 1, e.2))) := by
  induction ins with
  | nil => rfl
  | cons e rest ih =>
      obtain ⟨j, c, a, b⟩ := e
      have h1 : 1 ≤ j := h (j, c, a, b) (by simp)
      obtain ⟨j, rfl⟩ : ∃ j', j = j' + 1 := ⟨j - 1, by omega⟩
      show insertCopies (applyInsertions (x :: l) rest) (j + 1) c a b = _
      rw [ih (fun e he => h e (List.mem_cons_of_mem _ he))]
      rw [insertCopies_cons_succ]
      rfl

theorem shiftInsertions_shift (ins : List (Nat × Nat × Char × Char)) (i : Nat) :
    (shiftInsertions ins i).map (fun e => (e.1 - 1, e.2)) = shiftInsertions ins (i + 1) := by
  simp [shiftInsertions, List.map_map, Function.comp, Nat.sub_sub]

theorem applyInsertions_cons_shift {x : DifferenceColumn} {l : List DifferenceColumn}
    {ins : List (Nat × Nat × Char × Char)} {i : Nat} (h : ∀ e ∈ ins, i + 1 ≤ e.1) :
    applyInsertions (x :: l) (shiftInsertions ins i) =
      x :: applyInsertions l (shiftInsertions ins (i + 1)) := by
  rw [applyInsertions_cons, shiftInsertions_shift]
  intro e he
  obtain ⟨e0, he0, rfl⟩ := List.mem_map.mp he
  have := h e0 he0
  show 1 ≤ e0.1 - i
  omega

/-- Deferred insertions collected from enumeration index `i` on all target
positions at least `i`. -/
theorem hodecoDiff_insertions_ge {qm tm : List Nat} {cols : List DifferenceColumn} :
    ∀ {q t i : Nat} {res}, hodecoDiff qm tm cols q t i = Except.ok res →
      ∀ e ∈ res.2.1, i ≤ e.1 := by
  induction cols with
  | nil =>
      intro q t i res h e he
      unfold hodecoDiff at h
      injection h with h
      subst h
      simp at he
  | cons col rest ih =>
      intro q t i res h e he
      cases col with
      | Match len =>
          unfold hodecoDiff at h
          simp only [andThenE_eq_ok] at h
          obtain ⟨a, ha, b, hb, r0, hr, h⟩ := h
          injection h with h
          subst h
          exact Nat.le_of_succ_le (ih hr e he)
      | Deletion s =>
          unfold hodecoDiff at h
          split at h
          case isFalse => exact Except.noConfusion h
          simp only [andThenE_eq_ok] at h
          obtain ⟨r0, hr, h⟩ := h
          injection h with h
          subst h
          exact Nat.le_of_succ_le (ih hr e he)
      | Insertion s =>
          unfold hodecoDiff at h
          split at h
          case isFalse => exact Except.noConfusion h
          simp only [andThenE_eq_ok] at h
          obtain ⟨r0, hr, h⟩ := h
          injection h with h
          subst h
          exact Nat.le_of_succ_le (ih hr e he)
      | Mismatch a b =>
          unfold hodecoDiff at h
          simp only [andThenE_eq_ok] at h
          obtain ⟨x, hx, y, hy, r0, hr, h⟩ := h
          injection h with h
          subst h
          simp only [List.mem_cons] at he
          rcases he with rfl | he
          · exact Nat.le_refl i
          · exact Nat.le_of_succ_le (ih hr e he)

/-- The deferred-insertion result of the source difference walk equals the
specification's build-a-new-sequence walk, and so does the accumulated
mismatch/gap total, provided the query table is strictly increasing (each
compressed query position stands for at least one decompressed base). -/
theorem hodecoDiff_ok_spec {qm tm : List Nat} (hstrict : TableLT qm)
    {cols : List DifferenceColumn} :
    ∀ {q t i : Nat} {res}, hodecoDiff qm tm cols q t i = Except.ok res →
      applyInsertions res.1 (shiftInsertions res.2.1 i) = (diffWalkSpec qm tm cols q t).1 ∧
      res.2.2 = (diffWalkSpec qm tm cols q t).2 := by
  induction cols with
  | nil =>
      intro q t i res h
      unfold hodecoDiff at h
      injection h with h
      subst h
      exact ⟨rfl, rfl⟩
  | cons col rest ih =>
      intro q t i res h
      cases col with
      | Match len =>
          unfold hodecoDiff at h
          simp only [andThenE_eq_ok] at h
          obtain ⟨a, ha, b, hb, r0, hr, h⟩ := h
          injection h with h
          subst h
          obtain ⟨hl, ht2⟩ := ih hr
          have hge := hodecoDiff_insertions_ge hr
          constructor
          · show applyInsertions (DifferenceColumn.Match (a - b) :: r0.1)
              (shiftInsertions r0.2.1 i) = _
            rw [applyInsertions_cons_shift hge, hl]
            simp only [diffWalkSpec]
            rw [idx_ok_getD ha, idx_ok_getD hb]
          · show r0.2.2 = _
            simp only [diffWalkSpec]
            exact ht2
      | Deletion s =>
          unfold hodecoDiff at h
          split at h
          case isFalse => exact Except.noConfusion h
          rename_i hbound
          simp only [andThenE_eq_ok] at h
          obtain ⟨r0, hr, h⟩ := h
          injection h with h
          subst h
          obtain ⟨hl, ht2⟩ := ih hr
          have hge := hodecoDiff_insertions_ge hr
          have hslice := @homopolymer_decompress_string_slice tm t s hbound
          constructor
          · show applyInsertions (DifferenceColumn.Deletion _ :: r0.1)
              (shiftInsertions r0.2.1 i) = _
            rw [applyInsertions_cons_shift hge, hl, hslice]
            simp only [diffWalkSpec]
          · show (homopolymer_decompress_string s _).length + r0.2.2 = _
            rw [hslice, ht2]
            simp only [diffWalkSpec]
      | Insertion s =>
          unfold hodecoDiff at h
          split at h
          case isFalse => exact Except.noConfusion h
          rename_i hbound
          simp only [andThenE_eq_ok] at h
          obtain ⟨r0, hr, h⟩ := h
          injection h with h
          subst h
          obtain ⟨hl, ht2⟩ := ih hr
          have hge := hodecoDiff_insertions_ge hr
          have hslice := @homopolymer_decompress_string_slice qm q s hbound
          constructor
          · show applyInsertions (DifferenceColumn.Insertion _ :: r0.1)
              (shiftInsertions r0.2.1 i) = _
            rw [applyInsertions_cons_shift hge, hl, hslice]
            simp only [diffWalkSpec]
          · show (homopolymer_decompress_string s _).length + r0.2.2 = _
            rw [hslice, ht2]
            simp only [diffWalkSpec]
      | Mismatch rf qy =>
          unfold hodecoDiff at h
          simp only [andThenE_eq_ok] at h
          obtain ⟨a2, ha, b2, hb, r0, hr, h⟩ := h
          injection h with h
          subst h
          obtain ⟨hl, ht2⟩ := ih hr
          have hge := hodecoDiff_insertions_ge hr
          have hba : b2 < a2 := by
            have e1 := idx_ok_getD ha
            have e2 := idx_ok_getD hb
            have e3 := idx_ok_lt ha
            have := hstrict q (by omega)
            omega
          constructor
          · show applyInsertions (DifferenceColumn.Mismatch rf qy :: r0.1)
              (shiftInsertions ((i, a2 - b2 - 1, rf, qy) :: r0.2.1) i) = _
            have hshift : shiftInsertions ((i, a2 - b2 - 1, rf, qy) :: r0.2.1) i =
                (0, a2 - b2 - 1, rf, qy) :: shiftInsertions r0.2.1 i := by
              simp [shiftInsertions]
            rw [hshift]
            show insertCopies (applyInsertions (DifferenceColumn.Mismatch rf qy :: r0.1)
              (shiftInsertions r0.2.1 i)) 0 (a2 - b2 - 1) rf qy = _
            rw [applyInsertions_cons_shift hge, hl, insertCopies_zero]
            simp only [diffWalkSpec]
            rw [idx_ok_getD ha, idx_ok_getD hb]
            have hsucc : a2 - b2 = (a2 - b2 - 1) + 1 := by omega
            rw [hsucc, List.replicate_succ' (a2 - b2 - 1), List.append_assoc]
            rfl
          · show (a2 - b2 - 1) + r0.2.2 = _
            simp only [diffWalkSpec]
            rw [idx_ok_getD ha, idx_ok_getD hb, ht2]

/-- C2: for an accepted record with a base-level difference sequence over a
strictly increasing query table, the output difference sequence and total are
the specification's build-new walk from the pre-remap start coordinates: a
Mismatch reached with query cursor c becomes exactly
`query_table[c+1] - query_table[c]` adjacent identical entries (the original
plus `query_table[c+1] - query_table[c] - 1` deferred copies applied in
reverse index order), only `query_table[c+1] - query_table[c] - 1` is added
to the mismatch/gap accumulator, and both cursors advance by 1. -/
theorem c2_mismatch_split {r : PAFLine} {qms tms : List (String × List Nat)} {r' : PAFLine}
    {cols : List DifferenceColumn} {qm : List Nat}
    (hok : hodeco_paf_line r qms tms = Except.ok r')
    (hdiff : r.difference_string = some cols)
    (hq : List.lookup r.query_sequence_name qms = some qm)
    (hstrict : TableLT qm) :
    ∃ tm, List.lookup r.target_sequence_name tms = some tm ∧
      r'.difference_string = some ((diffWalkSpec qm tm cols r.query_start_coordinate
        r.target_start_coordinate_on_original_strand).1) ∧
      r'.total_number_of_mismatches_and_gaps = some ((diffWalkSpec qm tm cols
        r.query_start_coordinate r.target_start_coordinate_on_original_strand).2) := by
  obtain ⟨qm0, tm, nql, ntl, nqs, nqe, nts, nte, cig, dif, hq0, ht, _, _, _, _, _, _, _, _, _, _,
    hcigf, hdiff2, hr'⟩ := hodeco_ok_elim hok
  subst hr'
  rw [hq] at hq0
  obtain rfl : qm = qm0 := Option.some.inj hq0
  rw [hdiff] at hdiff2
  simp only [hodecoDiffField, andThenE_eq_ok] at hdiff2
  obtain ⟨dres, hdres, hdiff2⟩ := hdiff2
  injection hdiff2 with hdiff2
  subst hdiff2
  obtain ⟨hl, ht2⟩ := hodecoDiff_ok_spec hstrict hdres
  rw [shiftInsertions_zero] at hl
  refine ⟨tm, ht, ?_, ?_⟩
  · show some (applyInsertions dres.1 dres.2.1) = _
    rw [hl]
  · show some dres.2.2 = _
    rw [ht2]

/-- Compressed record with a single base-level Mismatch at query cursor 1. -/
def rC2 : PAFLine where
  query_sequence_name := "q"
  query_sequence_length := 3
  query_start_coordinate := 1
  query_end_coordinate := 2
  strand := true
  target_sequence_name := "t"
  target_sequence_length := 3
  target_start_coordinate_on_original_strand := 1
  target_end_coordinate_on_original_strand := 2
  number_of_matching_bases := 1
  number_of_bases_and_gaps := 1
  mapping_quality := 255
  cigar_string := none
  difference_string := some [DifferenceColumn.Mismatch 'A' 'C']
  total_number_of_mismatches_and_gaps := some 1
  approximate_per_base_sequence_divergence := none
  gap_compressed_per_base_sequence_divergence := none

/-- Decompressed form of `rC2`: the Mismatch splits into 2 identical entries
(hodeco count `T[2]-T[1]-1 = 1`) while the stored total is 1. -/
def rC2out : PAFLine := { rC2 with
  query_sequence_length := 4,
  target_sequence_length := 4,
  query_end_coordinate := 3,
  target_end_coordinate_on_original_strand := 3,
  difference_string :=
    some [DifferenceColumn.Mismatch 'A' 'C', DifferenceColumn.Mismatch 'A' 'C'],
  total_number_of_mismatches_and_gaps := some 1 }

/-- Witness for C2: with table `[0,1,3,4]` a Mismatch at cursor 1 yields 2
identical Mismatch entries while adding only 1 to the accumulator. -/
theorem c2_witness :
    hodeco_paf_line rC2 [("q", exampleTable)] [("t", exampleTable)] = Except.ok rC2out ∧
    rC2out.difference_string =
      some [DifferenceColumn.Mismatch 'A' 'C', DifferenceColumn.Mismatch 'A' 'C'] ∧
    rC2out.total_number_of_mismatches_and_gaps = some 1 := by
  refine ⟨by decide, ?_, by decide⟩
  obtain ⟨tm, ht, hdiff, htotal⟩ :=
    @c2_mismatch_split rC2 [("q", exampleTable)] [("t", exampleTable)] rC2out
      [DifferenceColumn.Mismatch 'A' 'C'] exampleTable (by decide) rfl (by decide) (by decide)
  have h1 : List.lookup rC2.target_sequence_name [("t", exampleTable)] = some exampleTable := by
    decide
  rw [h1] at ht
  obtain rfl : exampleTable = tm := Option.some.inj ht
  rw [hdiff]
  decide

/-- C5: a Deletion (resp. Insertion) difference entry accepted by the walk
has its stored string replaced by the expansion repeating character i
`target_table[t+i+1] - target_table[t+i]` (resp. query-table) times, the
matching cursor advances by the compressed string length, the decompressed
length is added to the mismatch/gap accumulator, and on a non-decreasing
table that length telescopes to `table[cursor+len] - table[cursor]`. -/
theorem c5_gap_string_decompression {qm tm : List Nat} {s : List Char}
    {rest : List DifferenceColumn} {q t i : Nat}
    {res : List DifferenceColumn × List (Nat × Nat × Char × Char) × Nat} :
    (hodecoDiff qm tm (DifferenceColumn.Deletion s :: rest) q t i = Except.ok res →
      t + s.length + 1 ≤ tm.length ∧
      ∃ res', hodecoDiff qm tm rest q (t + s.length) (i + 1) = Except.ok res' ∧
        res.1 = DifferenceColumn.Deletion (specStringExpand tm s t) :: res'.1 ∧
        res.2.2 = (specStringExpand tm s t).length + res'.2.2 ∧
        (TableLE tm →
          (specStringExpand tm s t).length = tm.getD (t + s.length) 0 - tm.getD t 0)) ∧
    (hodecoDiff qm tm (DifferenceColumn.Insertion s :: rest) q t i = Except.ok res →
      q + s.length + 1 ≤ qm.length ∧
      ∃ res', hodecoDiff qm tm rest (q + s.length) t (i + 1) = Except.ok res' ∧
        res.1 = DifferenceColumn.Insertion (specStringExpand qm s q) :: res'.1 ∧
        res.2.2 = (specStringExpand qm s q).length + res'.2.2 ∧
        (TableLE qm →
          (specStringExpand qm s q).length = qm.getD (q + s.length) 0 - qm.getD q 0)) := by
  constructor
  · intro h
    unfold hodecoDiff at h
    split at h
    case isFalse => exact Except.noConfusion h
    rename_i hbound
    simp only [andThenE_eq_ok] at h
    obtain ⟨r0, hr, h⟩ := h
    injection h with h
    subst h
    refine ⟨hbound, r0, hr, ?_, ?_, ?_⟩
    · show DifferenceColumn.Deletion _ :: r0.1 = _
      rw [@homopolymer_decompress_string_slice tm t s hbound]
    · show (homopolymer_decompress_string s _).length + r0.2.2 = _
      rw [@homopolymer_decompress_string_slice tm t s hbound]
    · intro hm
      exact specStringExpand_length hm s t (by omega)
  · intro h
    unfold hodecoDiff at h
    split at h
    case isFalse => exact Except.noConfusion h
    rename_i hbound
    simp only [andThenE_eq_ok] at h
    obtain ⟨r0, hr, h⟩ := h
    injection h with h
    subst h
    refine ⟨hbound, r0, hr, ?_, ?_, ?_⟩
    · show DifferenceColumn.Insertion _ :: r0.1 = _
      rw [@homopolymer_decompress_string_slice qm q s hbound]
    · show (homopolymer_decompress_string s _).length + r0.2.2 = _
      rw [@homopolymer_decompress_string_slice qm q s hbound]
    · intro hm
      exact specStringExpand_length hm s q (by omega)

/-- Witness for C5: a Deletion of "A" at target cursor 1 on `[0,1,3,4]`
becomes "AA" (length `T[2]-T[1] = 2`), added to the accumulator. -/
theorem c5_witness :
    hodecoDiff exampleTable exampleTable [DifferenceColumn.Deletion ['A']] 1 1 0 =
      Except.ok ([DifferenceColumn.Deletion ['A', 'A']], [], 2) ∧
    specStringExpand exampleTable ['A'] 1 = ['A', 'A'] ∧
    (specStringExpand exampleTable ['A'] 1).length =
      exampleTable.getD 2 0 - exampleTable.getD 1 0 := by
  obtain ⟨hb, res', hres', hcols, htot, hlen⟩ :=
    (@c5_gap_string_decompression exampleTable exampleTable ['A'] [] 1 1 0
      ([DifferenceColumn.Deletion ['A', 'A']], [], 2)).1 (by decide)
  exact ⟨by decide, by decide, hlen (by decide)⟩

/-! ### Identity tables (claim C8) -/

/-- Identity offset table for a sequence of length `n`: `T[i] = i` for every
`i`, of length `n + 1`. -/
def idTable (n : Nat) : List Nat := List.range (n + 1)

theorem length_idTable (n : Nat) : (idTable n).length = n + 1 := by
  simp [idTable]

theorem idTable_getD {n i : Nat} (h : i ≤ n) : (idTable n).getD i 0 = i := by
  rw [List.getD_eq_getElem?_getD, idTable, List.getElem?_range (by omega)]
  rfl

theorem idx_idTable {n i : Nat} (h : i ≤ n) : idx (idTable n) i = Except.ok i := by
  rw [idx_eq_ok, idTable, List.getElem?_range (by omega)]

theorem lastE_idTable (n : Nat) : lastE (idTable n) = Except.ok n := by
  rw [lastE_eq_ok, idTable, List.range_succ, List.getLast?_concat]

theorem lookupE_self (name : String) (v : List Nat) (e : HodecoError) :
    lookupE [(name, v)] name e = Except.ok v := by
  simp [lookupE, List.lookup]

/-- Compressed-unit in-bounds check for a CIGAR walk against sequence lengths
`qlen`/`tlen`, also refusing Mismatch runs. -/
def cigarBounded (qlen tlen : Nat) : List CigarColumn → Nat → Nat → Bool
  | [], _, _ => true
  | CigarColumn.Match k :: rest, q, t =>
      decide (q + k ≤ qlen) && decide (t + k ≤ tlen) && cigarBounded qlen tlen rest (q + k) (t + k)
  | CigarColumn.Deletion k :: rest, q, t =>
      decide (t + k ≤ tlen) && cigarBounded qlen tlen rest q (t + k)
  | CigarColumn.Insertion k :: rest, q, t =>
      decide (q + k ≤ qlen) && cigarBounded qlen tlen rest (q + k) t
  | CigarColumn.Mismatch _ :: _, _, _ => false

/-- Compressed-unit in-bounds check for a difference walk. -/
def diffBounded (qlen tlen : Nat) : List DifferenceColumn → Nat → Nat → Bool
  | [], _, _ => true
  | DifferenceColumn.Match k :: rest, q, t =>
      decide (q + k ≤ qlen) && decide (t + k ≤ tlen) && diffBounded qlen tlen rest (q + k) (t + k)
  | DifferenceColumn.Deletion s :: rest, q, t =>
      decide (t + s.length ≤ tlen) && diffBounded qlen tlen rest q (t + s.length)
  | DifferenceColumn.Insertion s :: rest, q, t =>
      decide (q + s.length ≤ qlen) && diffBounded qlen tlen rest (q + s.length) t
  | DifferenceColumn.Mismatch _ _ :: rest, q, t =>
      decide (q + 1 ≤ qlen) && decide (t + 1 ≤ tlen) && diffBounded qlen tlen rest (q + 1) (t + 1)

/-- Character-string length carried by a difference column. -/
def diffColumnLen : DifferenceColumn → Nat
  | DifferenceColumn.Deletion s => s.length
  | DifferenceColumn.Insertion s => s.length
  | _ => 0

/-- Sum of the deletion/insertion string lengths of a difference sequence. -/
def diffLenSum (cols : List DifferenceColumn) : Nat := (cols.map diffColumnLen).sum

theorem specStringExpand_id {m : Nat} :
    ∀ (s : List Char) (t : Nat), t + s.length ≤ m → specStringExpand (idTable m) s t = s := by
  intro s
  induction s with
  | nil => intro t _; rfl
  | cons c rest ih =>
      intro t hb
      simp only [List.length_cons] at hb
      show List.replicate _ c ++ _ = _
      rw [idTable_getD (by omega), idTable_getD (by omega)]
      have h1 : t + 1 - t = 1 := by omega
      rw [h1, ih (t + 1) (by omega)]
      rfl

/-- On identity tables an in-bounds CIGAR walk is the identity, and the
accumulators are the plain sums over the unchanged columns. -/
theorem hodecoCigar_id {n m : Nat} {cols : List CigarColumn} :
    ∀ {q t : Nat}, cigarBounded n m cols q t = true →
      hodecoCigar (idTable n) (idTable m) cols q t =
        Except.ok (cols, sumMatchCounts cols, sumCounts cols) := by
  induction cols with
  | nil =>
      intro q t _
      rfl
  | cons col rest ih =>
      intro q t hb
      cases col with
      | Match k =>
          simp only [cigarBounded, Bool.and_eq_true, decide_eq_true_eq] at hb
          obtain ⟨⟨h1, h2⟩, h3⟩ := hb
          unfold hodecoCigar
          rw [idx_idTable (by omega : q + k ≤ n), idx_idTable (by omega : q ≤ n)]
          simp only [andThenE]
          rw [ih h3]
          simp only [andThenE]
          have hk : q + k - q = k := by omega
          rw [hk]
          simp [sumMatchCounts, sumCounts, matchCount, cigarColumnCount]
      | Deletion k =>
          simp only [cigarBounded, Bool.and_eq_true, decide_eq_true_eq] at hb
          obtain ⟨h2, h3⟩ := hb
          unfold hodecoCigar
          rw [idx_idTable (by omega : t + k ≤ m), idx_idTable (by omega : t ≤ m)]
          simp only [andThenE]
          rw [ih h3]
          simp only [andThenE]
          have hk : t + k - t = k := by omega
          rw [hk]
          simp [sumMatchCounts, sumCounts, matchCount, cigarColumnCount]
      | Insertion k =>
          simp only [cigarBounded, Bool.and_eq_true, decide_eq_true_eq] at hb
          obtain ⟨h1, h3⟩ := hb
          unfold hodecoCigar
          rw [idx_idTable (by omega : q + k ≤ n), idx_idTable (by omega : q ≤ n)]
          simp only [andThenE]
          rw [ih h3]
          simp only [andThenE]
          have hk : q + k - q = k := by omega
          rw [hk]
          simp [sumMatchCounts, sumCounts, matchCount, cigarColumnCount]
      | Mismatch k =>
          simp [cigarBounded] at hb

/-- On identity tables an in-bounds difference walk keeps every column, all
deferred insertions carry count 0, and the accumulator is the sum of the
deletion/insertion string lengths. -/
theorem hodecoDiff_id {n m : Nat} {cols : List DifferenceColumn} :
    ∀ {q t i : Nat}, diffBounded n m cols q t = true →
      ∃ inss, hodecoDiff (idTable n) (idTable m) cols q t i =
          Except.ok (cols, inss, diffLenSum cols) ∧ ∀ e ∈ inss, e.2.1 = 0 := by
  induction cols with
  | nil =>
      intro q t i _
      exact ⟨[], rfl, by simp⟩
  | cons col rest ih =>
      intro q t i hb
      cases col with
      | Match k =>
          simp only [diffBounded, Bool.and_eq_true, decide_eq_true_eq] at hb
          obtain ⟨⟨h1, h2⟩, h3⟩ := hb
          obtain ⟨inss, heq, hz⟩ := @ih (q + k) (t + k) (i + 1) h3
          refine ⟨inss, ?_, hz⟩
          unfold hodecoDiff
          rw [idx_idTable (by omega : q + k ≤ n), idx_idTable (by omega : q ≤ n)]
          simp only [andThenE]
          rw [heq]
          simp only [andThenE]
          have hk : q + k - q = k := by omega
          rw [hk]
          simp [diffLenSum, diffColumnLen]
      | Deletion s =>
          simp only [diffBounded, Bool.and_eq_true, decide_eq_true_eq] at hb
          obtain ⟨h2, h3⟩ := hb
          obtain ⟨inss, heq, hz⟩ := @ih q (t + s.length) (i + 1) h3
          refine ⟨inss, ?_, hz⟩
          unfold hodecoDiff
          rw [if_pos (by rw [length_idTable]; omega)]
          have hs : homopolymer_decompress_string s
              (((idTable m).drop t).take (s.length + 1)) = s := by
            rw [@homopolymer_decompress_string_slice (idTable m) t s
              (by rw [length_idTable]; omega)]
            exact specStringExpand_id s t (by omega)
          simp only [hs]
          rw [heq]
          simp only [andThenE]
          simp [diffLenSum, diffColumnLen]
      | Insertion s =>
          simp only [diffBounded, Bool.and_eq_true, decide_eq_true_eq] at hb
          obtain ⟨h1, h3⟩ := hb
          obtain ⟨inss, heq, hz⟩ := @ih (q + s.length) t (i + 1) h3
          refine ⟨inss, ?_, hz⟩
          unfold hodecoDiff
          rw [if_pos (by rw [length_idTable]; omega)]
          have hs : homopolymer_decompress_string s
              (((idTable n).drop q).take (s.length + 1)) = s := by
            rw [@homopolymer_decompress_string_slice (idTable n) q s
              (by rw [length_idTable]; omega)]
            exact specStringExpand_id s q (by omega)
          simp only [hs]
          rw [heq]
          simp only [andThenE]
          simp [diffLenSum, diffColumnLen]
      | Mismatch a b =>
          simp only [diffBounded, Bool.and_eq_true, decide_eq_true_eq] at hb
          obtain ⟨⟨h1, h2⟩, h3⟩ := hb
          obtain ⟨inss, heq, hz⟩ := @ih (q + 1) (t + 1) (i + 1) h3
          refine ⟨(i, 0, a, b) :: inss, ?_, ?_⟩
          · unfold hodecoDiff
            rw [idx_idTable (by omega : q + 1 ≤ n), idx_idTable (by omega : q ≤ n)]
            simp only [andThenE]
            rw [heq]
            simp only [andThenE]
            have hk : q + 1 - q - 1 = 0 := by omega
            rw [hk]
            simp [diffLenSum, diffColumnLen]
          · intro e he
            simp only [List.mem_cons] at he
            rcases he with rfl | he
            · rfl
            · exact hz e he

/-- Insertions all carrying count 0 change nothing. -/
theorem applyInsertions_zero {l : List DifferenceColumn}
    {ins : List (Nat × Nat × Char × Char)} (h : ∀ e ∈ ins, e.2.1 = 0) :
    applyInsertions l ins = l := by
  induction ins with
  | nil => rfl
  | cons e rest ih =>
      show insertCopies (applyInsertions l rest) e.1 e.2.1 _ _ = l
      rw [h e (by simp), ih (fun x hx => h x (List.mem_cons_of_mem _ hx))]
      rfl

/-- Scaling by `l / l` is the identity on an optional divergence once
`l > 0`. -/
theorem divergence_map_id {l : Nat} (hl : 0 < l) (o : Option ℚ) :
    Option.map (fun d => d * ((l : ℚ) / (l : ℚ))) o = o := by
  have h1 : ((l : ℚ) / (l : ℚ)) = 1 := by
    apply div_self
    exact_mod_cast show l ≠ 0 by omega
  cases o <;> simp [h1]

/-- Consistency of an already-decompressed record with the identity tables of
its own lengths: in-bounds coordinates with strict spans; when a CIGAR string
is present, an in-bounds Mismatch-free walk whose sums equal the stored
counts; when a difference string is present, an in-bounds walk whose stored
total equals the sum of the deletion/insertion string lengths. -/
def identityReady (r : PAFLine) : Bool :=
  decide (r.query_start_coordinate < r.query_end_coordinate) &&
  decide (r.query_end_coordinate ≤ r.query_sequence_length) &&
  decide (r.target_start_coordinate_on_original_strand <
    r.target_end_coordinate_on_original_strand) &&
  decide (r.target_end_coordinate_on_original_strand ≤ r.target_sequence_length) &&
  (match r.cigar_string with
   | none => true
   | some cols =>
       cigarBounded r.query_sequence_length r.target_sequence_length cols
         r.query_start_coordinate r.target_start_coordinate_on_original_strand &&
       decide (r.number_of_matching_bases = sumMatchCounts cols) &&
       decide (r.number_of_bases_and_gaps = sumCounts cols)) &&
  (match r.difference_string with
   | none => true
   | some cols =>
       diffBounded r.query_sequence_length r.target_sequence_length cols
         r.query_start_coordinate r.target_start_coordinate_on_original_strand &&
       decide (r.total_number_of_mismatches_and_gaps = some (diffLenSum cols)))

/-- Core of the identity no-op: once both optional-field stages reproduce
their inputs, the whole decompressor reproduces the record on identity
tables. -/
theorem hodeco_identity_core {qname tname : String} {qlen qs qe tlen ts te nmb nbg mq : Nat}
    {strand : Bool} {cig0 : Option (List CigarColumn)} {dif0 : Option (List DifferenceColumn)}
    {tot0 : Option Nat} {div1 div2 : Option ℚ}
    (h1 : qs < qe) (h2 : qe ≤ qlen) (h3 : ts < te) (h4 : te ≤ tlen)
    (hcigf : hodecoCigarField (idTable qlen) (idTable tlen) qs ts cig0 nmb nbg =
      Except.ok (cig0, nmb, nbg))
    (hdiff : hodecoDiffField (idTable qlen) (idTable tlen) qs ts dif0 tot0 =
      Except.ok (dif0, tot0)) :
    hodeco_paf_line (PAFLine.mk qname qlen qs qe strand tname tlen ts te nmb nbg mq cig0 dif0
        tot0 div1 div2)
      [(qname, idTable qlen)] [(tname, idTable tlen)] =
      Except.ok (PAFLine.mk qname qlen qs qe strand tname tlen ts te nmb nbg mq cig0 dif0
        tot0 div1 div2) := by
  have hq0 : 0 < qlen := by omega
  have hs1 : ((qe : Int) - (qs : Int) > 0) := by omega
  have hs2 : ((te : Int) - (ts : Int) > 0) := by omega
  unfold hodeco_paf_line
  simp only [andThenE, lookupE_self, length_idTable, Nat.add_sub_cancel, eq_self_iff_true,
    if_true, lastE_idTable, idx_idTable (show qs ≤ qlen by omega), idx_idTable h2,
    idx_idTable (show ts ≤ tlen by omega), idx_idTable h4, hs1, hs2, hcigf, hdiff,
    divergence_map_id hq0]

/-- C8 (amended): re-running the decompressor against identity offset tables
of length `record_length + 1` is a no-op exactly on identity-consistent
records; in particular the stored total-mismatches-and-gaps must equal the
sum of the deletion/insertion string lengths, because that accumulator is
recomputed from scratch on every run. -/
theorem c8_identity_noop {r : PAFLine} (h : identityReady r = true) :
    hodeco_paf_line r [(r.query_sequence_name, idTable r.query_sequence_length)]
      [(r.target_sequence_name, idTable r.target_sequence_length)] = Except.ok r := by
  obtain ⟨qname, qlen, qs, qe, strand, tname, tlen, ts, te, nmb, nbg, mq, cig0, dif0, tot0,
    div1, div2⟩ := r
  cases cig0 with
  | none =>
      cases dif0 with
      | none =>
          simp only [identityReady, Bool.and_eq_true, decide_eq_true_eq, Bool.and_true] at h
          obtain ⟨⟨⟨h1, h2⟩, h3⟩, h4⟩ := h
          exact hodeco_identity_core h1 h2 h3 h4 rfl rfl
      | some cols2 =>
          simp only [identityReady, Bool.and_eq_true, decide_eq_true_eq, Bool.and_true] at h
          obtain ⟨⟨⟨⟨h1, h2⟩, h3⟩, h4⟩, hdb, htot⟩ := h
          subst htot
          obtain ⟨inss, hdeq, hz⟩ := @hodecoDiff_id qlen tlen cols2 qs ts 0 hdb
          refine hodeco_identity_core h1 h2 h3 h4 rfl ?_
          simp only [hodecoDiffField, hdeq, andThenE, applyInsertions_zero hz]
  | some cols =>
      cases dif0 with
      | none =>
          simp only [identityReady, Bool.and_eq_true, decide_eq_true_eq, Bool.and_true] at h
          obtain ⟨⟨⟨⟨h1, h2⟩, h3⟩, h4⟩, ⟨hcb, hm⟩, hg⟩ := h
          subst hm
          subst hg
          refine hodeco_identity_core h1 h2 h3 h4 ?_ rfl
          simp only [hodecoCigarField, hodecoCigar_id hcb, andThenE]
      | some cols2 =>
          simp only [identityReady, Bool.and_eq_true, decide_eq_true_eq, Bool.and_true] at h
          obtain ⟨⟨⟨⟨⟨h1, h2⟩, h3⟩, h4⟩, ⟨hcb, hm⟩, hg⟩, hdb, htot⟩ := h
          subst hm
          subst hg
          subst htot
          obtain ⟨inss, hdeq, hz⟩ := @hodecoDiff_id qlen tlen cols2 qs ts 0 hdb
          refine hodeco_identity_core h1 h2 h3 h4 ?_ ?_
          · simp only [hodecoCigarField, hodecoCigar_id hcb, andThenE]
          · simp only [hodecoDiffField, hdeq, andThenE, applyInsertions_zero hz]

/-- Offset table collapsing one homopolymer run of length 2. -/
def doubleTable : List Nat := [0, 2]

/-- Compressed record whose single Mismatch sits in a collapsed homopolymer. -/
def rC8 : PAFLine where
  query_sequence_name := "q8"
  query_sequence_length := 1
  query_start_coordinate := 0
  query_end_coordinate := 1
  strand := false
  target_sequence_name := "t8"
  target_sequence_length := 1
  target_start_coordinate_on_original_strand := 0
  target_end_coordinate_on_original_strand := 1
  number_of_matching_bases := 0
  number_of_bases_and_gaps := 1
  mapping_quality := 0
  cigar_string := none
  difference_string := some [DifferenceColumn.Mismatch 'A' 'C']
  total_number_of_mismatches_and_gaps := some 1
  approximate_per_base_sequence_divergence := none
  gap_compressed_per_base_sequence_divergence := none

/-- Decompressed form of `rC8`: the Mismatch split into two entries while the
recomputed total is 1 (only `hodeco_count` is accumulated). -/
def rC8out : PAFLine := { rC8 with
  query_sequence_length := 2,
  target_sequence_length := 2,
  query_end_coordinate := 2,
  target_end_coordinate_on_original_strand := 2,
  difference_string :=
    some [DifferenceColumn.Mismatch 'A' 'C', DifferenceColumn.Mismatch 'A' 'C'],
  total_number_of_mismatches_and_gaps := some 1 }

/-- Counterexample to C8 as stated: `rC8out` is an already-decompressed
record (first conjunct), yet re-running the decompressor on identity tables
of its lengths changes it — the mismatch/gap accumulator is recomputed to 0
while the stored total is 1. -/
theorem c8_counterexample :
    hodeco_paf_line rC8 [("q8", doubleTable)] [("t8", doubleTable)] = Except.ok rC8out ∧
    hodeco_paf_line rC8out [("q8", idTable 2)] [("t8", idTable 2)] ≠ Except.ok rC8out := by
  constructor
  · decide
  · decide

/-- Witness for the amended C8 at the decompressed scenario record `rC1out`
(whose mismatch-free payload is identity-consistent). -/
theorem c8_witness :
    identityReady rC1out = true ∧
    hodeco_paf_line rC1out [(rC1out.query_sequence_name, idTable rC1out.query_sequence_length)]
      [(rC1out.target_sequence_name, idTable rC1out.target_sequence_length)] =
      Except.ok rC1out :=
  ⟨by decide, c8_identity_noop (by decide)⟩

end Hodeco
